import Mathlib

/-!
Verification of the SUMO knowledge-base ingestion core: the passage chunker
(`chunk_document` in `sumo_kb_tools/sumo_kb_downloader.py`) and the
structure-preserving markup extractor (`ImprovedHTMLExtractor` in
`sumo_kb_tools/improved_html_extractor.py`).

Text is modelled as `List Char`.  Python `str` values are written as Lean
string literals converted with `.data`.
-/

set_option maxRecDepth 4000

/-- Whitespace test used by Python `str.split()` and `str.strip()`
(ASCII whitespace: space, tab, newline, carriage return, vertical tab,
form feed). -/
def pyIsSpace (c : Char) : Bool :=
  c = ' ' || c = '\t' || c = '\n' || c = '\r' || c = '\x0b' || c = '\x0c'

/-- Helper for `pySplitWords`: `acc` holds the (reversed) word being read. -/
def splitWordsAux : List Char → List Char → List (List Char)
  | [], acc => if acc = [] then [] else [acc.reverse]
  | c :: cs, acc =>
    if pyIsSpace c then
      if acc = [] then splitWordsAux cs [] else acc.reverse :: splitWordsAux cs []
    else
      splitWordsAux cs (c :: acc)

/-- Python `str.split()` with no separator: maximal runs of non-whitespace
characters, with no empty words. -/
def pySplitWords (l : List Char) : List (List Char) :=
  splitWordsAux l []

/-- Python `str.strip()`: remove leading and trailing whitespace. -/
def pyStrip (l : List Char) : List Char :=
  ((l.dropWhile pyIsSpace).reverse.dropWhile pyIsSpace).reverse

/-- Decimal digits of a natural number, as Python `str(n)` (used for the
`_chunk_{index}` suffix of chunk ids). -/
def natDigits (n : Nat) : List Char :=
  (Nat.repr n).data

/-- Citation block copied verbatim onto every chunk
(`process_document_for_chatbot`, sumo_kb_downloader.py lines 171-178). -/
structure Citation where
  title : List Char
  url : List Char
  source : List Char
  locale : List Char
  products : List Char
  topics : List Char
deriving DecidableEq

/-- The fields of a processed document that `chunk_document` reads
(sumo_kb_downloader.py lines 196-253). -/
structure ProcessedDoc where
  id : List Char
  slug : List Char
  title : List Char
  clean_text : List Char
  citation : Citation
deriving DecidableEq

/-- The `metadata` dictionary of a chunk.  `position` is an `Option`
because the single-chunk branch of `chunk_document` never writes the
`position` key.  `total_chunks` is an `Int` because the loop writes the
placeholder `-1` before back-filling. -/
structure ChunkMeta where
  chunk_words : Nat
  total_chunks : Int
  slug : List Char
  title : List Char
  position : Option (List Char)
deriving DecidableEq

/-- One chunk record produced by `chunk_document`. -/
structure Chunk where
  chunk_id : List Char
  doc_id : List Char
  chunk_index : Nat
  text : List Char
  citation : Citation
  metadata : ChunkMeta
deriving DecidableEq

/-- The body of the splitting loop of `chunk_document`
(sumo_kb_downloader.py lines 221-245): the chunk built for window start
`chunk_start` and index `chunk_index`.  `words[chunk_start:chunk_end]` is
`(words.drop chunk_start).take (chunk_end - chunk_start)`. -/
def mkChunk (doc : ProcessedDoc) (chunk_size : Nat) (words : List (List Char))
    (chunk_start chunk_index : Nat) : Chunk :=
  let chunk_end := min (chunk_start + chunk_size) words.length
  let chunk_words := (words.drop chunk_start).take (chunk_end - chunk_start)
  let chunk_text := List.intercalate [' '] chunk_words
  let context_marker :=
    if chunk_index > 0 then "[Continued from ".data ++ doc.title ++ "] ".data else []
  { chunk_id := doc.id ++ "_chunk_".data ++ natDigits chunk_index
    doc_id := doc.id
    chunk_index := chunk_index
    text := context_marker ++ chunk_text
    citation := doc.citation
    metadata :=
      { chunk_words := chunk_words.length
        total_chunks := -1
        slug := doc.slug
        title := doc.title
        position := some (if chunk_index = 0 then "beginning".data else "middle".data) } }

/-- The `while chunk_start < len(words)` loop of `chunk_document`
(sumo_kb_downloader.py lines 221-248).  The advance
`chunk_start + chunk_size - chunk_overlap` is the source's update
(truncated at 0, where the Python value would be negative and the loop,
like the non-advancing `chunk_overlap = chunk_size` case, never
terminates).  The loop is given fuel: `chunk_document` passes
`words.length + 1`, which exceeds the iteration count of every
terminating run (a terminating run advances by at least one word per
iteration), so a `none` result means the Python loop never terminates. -/
def chunkLoop (doc : ProcessedDoc) (chunk_size chunk_overlap : Nat)
    (words : List (List Char)) : Nat → Nat → Nat → Option (List Chunk)
  | 0, _, _ => none
  | fuel + 1, chunk_start, chunk_index =>
    if chunk_start < words.length then
      match chunkLoop doc chunk_size chunk_overlap words fuel
          (chunk_start + chunk_size - chunk_overlap) (chunk_index + 1) with
      | none => none
      | some rest => some (mkChunk doc chunk_size words chunk_start chunk_index :: rest)
    else
      some []

/-- Back-fill `total_chunks` on every chunk
(sumo_kb_downloader.py lines 251-252). -/
def backfillTotal (n : Int) (cs : List Chunk) : List Chunk :=
  cs.map fun c => { c with metadata := { c.metadata with total_chunks := n } }

/-- `chunks[-1]['metadata']['position'] = 'end'`
(sumo_kb_downloader.py line 253). -/
def setLastPositionEnd : List Chunk → List Chunk
  | [] => []
  | [c] => [{ c with metadata := { c.metadata with position := some ("end".data) } }]
  | c :: c2 :: cs => c :: setLastPositionEnd (c2 :: cs)

/-- `chunk_document` (sumo_kb_downloader.py lines 183-255).  Returns
`none` exactly when the splitting loop would never terminate (see
`chunkLoop`); the source has no guard on `chunk_overlap` versus
`chunk_size` and raises no error. -/
def chunk_document (processed_doc : ProcessedDoc)
    (chunk_size chunk_overlap : Nat) : Option (List Chunk) :=
  let text := processed_doc.clean_text
  let words := pySplitWords text
  if words.length ≤ chunk_size then
    some [{ chunk_id := processed_doc.id ++ "_chunk_0".data
            doc_id := processed_doc.id
            chunk_index := 0
            text := text
            citation := processed_doc.citation
            metadata :=
              { chunk_words := words.length
                total_chunks := 1
                slug := processed_doc.slug
                title := processed_doc.title
                position := none } }]
  else
    match chunkLoop processed_doc chunk_size chunk_overlap words
        (words.length + 1) 0 0 with
    | none => none
    | some cs => some (setLastPositionEnd (backfillTotal (cs.length : Int) cs))

/-- Sample citation for concrete runs. -/
def sampleCitation : Citation :=
  { title := "T".data, url := "u".data, source := "Mozilla Support (SUMO)".data
    locale := "en-US".data, products := [], topics := [] }

/-- Concrete document with five words. -/
def doc5w : ProcessedDoc :=
  { id := "d5".data, slug := "s".data, title := "T".data
    clean_text := "a b c d e".data, citation := sampleCitation }

/-- Concrete document with two words. -/
def doc2w : ProcessedDoc :=
  { id := "d2".data, slug := "s".data, title := "T".data
    clean_text := "alpha beta".data, citation := sampleCitation }

/-- Concrete document with six words. -/
def doc6w : ProcessedDoc :=
  { id := "d6".data, slug := "s".data, title := "T".data
    clean_text := "a b c d e f".data, citation := sampleCitation }

/-- Concrete document with empty text. -/
def docEmpty : ProcessedDoc :=
  { id := "d0".data, slug := "s".data, title := "T".data
    clean_text := [], citation := sampleCitation }

/-- Concrete document with one word. -/
def doc1w : ProcessedDoc :=
  { id := "d1".data, slug := "s".data, title := "T".data
    clean_text := "hello".data, citation := sampleCitation }


/-!
The `ImprovedHTMLExtractor` (improved_html_extractor.py).  The standard
markup tokenizer (`html.parser.HTMLParser`) is the external scanner; the
extractor is embedded as a consumer of start-tag / end-tag / data events,
exactly mirroring `handle_starttag`, `handle_endtag`, `handle_data`,
`_flush_text` and `get_text`.
-/

/-- Length of the leading run of `c`. -/
def runLen (c : Char) : List Char → Nat
  | [] => 0
  | d :: ds => if d = c then runLen c ds + 1 else 0

/-- Fueled scan for `reCapRun`: replace each maximal run of `c` of length
`n` by `min n cap` copies, scanning left to right as `re.sub` does.  Each
step consumes at least one character, so fuel `l.length` always
suffices. -/
def reCapRunF (c : Char) (cap : Nat) : Nat → List Char → List Char
  | 0, l => l
  | _, [] => []
  | fuel + 1, d :: ds =>
    if d = c then
      List.replicate (min (runLen c ds + 1) cap) c ++
        reCapRunF c cap fuel (ds.drop (runLen c ds))
    else
      d :: reCapRunF c cap fuel ds

/-- `re.sub(r'\n{4,}', '\n\n\n', text)` is `reCapRun '\n' 3` and
`re.sub(r' {2,}', ' ', text)` is `reCapRun ' ' 1`
(improved_html_extractor.py lines 198-199): a run of at least `cap + 1`
copies of `c` is replaced by the replacement (`cap` copies of `c` for line
198, one copy for line 199), and shorter runs are left unchanged; in both
cases each maximal run of length `n` comes out as `min n cap` copies. -/
def reCapRun (c : Char) (cap : Nat) (l : List Char) : List Char :=
  reCapRunF c cap l.length l

/-- Fueled scan for `reSubNlSpaces`; fuel `l.length` always suffices. -/
def reSubNlSpacesF : Nat → List Char → List Char
  | 0, l => l
  | _, [] => []
  | fuel + 1, d :: ds =>
    if d = '\n' then
      '\n' :: reSubNlSpacesF fuel (ds.dropWhile (fun c => c = ' '))
    else
      d :: reSubNlSpacesF fuel ds

/-- `re.sub(r'\n +', '\n', text)` (improved_html_extractor.py line 200):
every run of spaces directly after a newline is removed. -/
def reSubNlSpaces (l : List Char) : List Char :=
  reSubNlSpacesF l.length l

/-- Decode one character reference after a `&`: named references from a
table of common entities, and decimal `&#NNN;` references.  Returns the
decoded character and the number of characters consumed.  This models the
fragment of Python `html.unescape` that the verified inputs exercise
(`html.unescape` leaves text without `&` unchanged). -/
def parseCharref (l : List Char) : Option (Char × Nat) :=
  match l with
  | '#' :: rest =>
    let digits := rest.takeWhile Char.isDigit
    if digits ≠ [] ∧ (rest.drop digits.length).headD ' ' = ';' then
      some (Char.ofNat (Nat.ofDigits 10 (digits.map (fun c => c.toNat - 48)).reverse),
            digits.length + 2)
    else none
  | _ =>
    if "amp;".data.isPrefixOf l then some ('&', 4)
    else if "lt;".data.isPrefixOf l then some ('<', 3)
    else if "gt;".data.isPrefixOf l then some ('>', 3)
    else if "quot;".data.isPrefixOf l then some ('"', 5)
    else if "nbsp;".data.isPrefixOf l then some ('\xa0', 5)
    else none

/-- Fueled scan for `pyUnescape`; each step consumes at least one
character, so fuel `l.length` always suffices. -/
def pyUnescapeF : Nat → List Char → List Char
  | 0, l => l
  | _, [] => []
  | fuel + 1, d :: ds =>
    if d = '&' then
      match parseCharref ds with
      | some (c, n) => c :: pyUnescapeF fuel (ds.drop n)
      | none => '&' :: pyUnescapeF fuel ds
    else
      d :: pyUnescapeF fuel ds

/-- `html.unescape(text)` (improved_html_extractor.py line 203), modelled
for the entity table of `parseCharref`. -/
def pyUnescape (l : List Char) : List Char :=
  pyUnescapeF l.length l

/-- The whitespace normalization of `get_text`
(improved_html_extractor.py lines 197-205), with the entity decoder as a
parameter: cap newline runs at 3, cap space runs at 1, strip spaces after
newlines, decode entities, strip the ends. -/
def normalizeWith (decode : List Char → List Char) (text : List Char) : List Char :=
  pyStrip (decode (reSubNlSpaces (reCapRun ' ' 1 (reCapRun '\n' 3 text))))

/-- Markup events delivered by the scanner: the arguments of
`handle_starttag`, `handle_endtag` and `handle_data`. -/
inductive HEvent where
  | starttag (tag : List Char) (attrs : List (List Char × List Char))
  | endtag (tag : List Char)
  | data (s : List Char)
deriving DecidableEq

/-- The mutable fields of `ImprovedHTMLExtractor`
(improved_html_extractor.py lines 17-27). -/
structure ExtState where
  output : List (List Char)
  current_text : List (List Char)
  in_skip : Bool
  in_code : Bool
  in_pre : Bool
  list_depth : Nat
  in_heading : Bool
  last_tag : Option (List Char)
deriving DecidableEq

/-- `self.skip_tags` (improved_html_extractor.py line 21). -/
def skip_tags : List (List Char) :=
  ["script".data, "style".data, "meta".data, "link".data, "noscript".data]

/-- Freshly initialized extractor (`__init__`). -/
def initState : ExtState :=
  { output := [], current_text := [], in_skip := false, in_code := false
    in_pre := false, list_depth := 0, in_heading := false, last_tag := none }

/-- `_flush_text` (improved_html_extractor.py lines 182-188). -/
def flush_text (s : ExtState) : ExtState :=
  if s.current_text ≠ [] then
    let text := List.intercalate [' '] s.current_text
    let s1 := if text ≠ [] then { s with output := s.output ++ [text] } else s
    { s1 with current_text := [] }
  else s

/-- `int(tag[1])` for a heading tag `h1`..`h6`. -/
def headingLevel (tag : List Char) : Nat :=
  match tag with
  | [_, c] => c.toNat - 48
  | _ => 0

/-- Whether `self.output` is nonempty and its last element ends with the
given suffix (the `self.output and self.output[-1].endswith(x)` test). -/
def lastEndsWith (out : List (List Char)) (suffix : List Char) : Bool :=
  match out.getLast? with
  | none => false
  | some l => suffix.isSuffixOf l

/-- `handle_starttag` (improved_html_extractor.py lines 29-127). -/
def handle_starttag (s0 : ExtState) (tag : List Char)
    (attrs : List (List Char × List Char)) : ExtState :=
  let s := { s0 with last_tag := some tag }
  if tag ∈ skip_tags then { s with in_skip := true }
  else if s.in_skip then s
  else if tag ∈ ["h1".data, "h2".data, "h3".data, "h4".data, "h5".data, "h6".data] then
    let s := flush_text s
    let s := { s with in_heading := true }
    { s with output := s.output ++
        ["\n\n".data ++ List.replicate (headingLevel tag) '#' ++ " ".data] }
  else if tag = "p".data then
    let s := flush_text s
    if s.output ≠ [] ∧ ¬ lastEndsWith s.output "\n\n".data then
      { s with output := s.output ++ ["\n\n".data] }
    else s
  else if tag = "br".data then
    { s with output := s.output ++ ["\n".data] }
  else if tag ∈ ["ul".data, "ol".data] then
    let s := flush_text s
    let s := { s with list_depth := s.list_depth + 1 }
    if s.output ≠ [] ∧ ¬ lastEndsWith s.output "\n".data then
      { s with output := s.output ++ ["\n".data] }
    else s
  else if tag = "li".data then
    let s := flush_text s
    let indent := List.flatten (List.replicate (s.list_depth - 1) "  ".data)
    { s with output := s.output ++ ["\n".data ++ indent ++ "• ".data] }
  else if tag ∈ ["code".data, "tt".data] then
    let s := flush_text s
    let s := { s with in_code := true }
    { s with output := s.output ++ ["`".data] }
  else if tag = "pre".data then
    let s := flush_text s
    let s := { s with in_pre := true }
    { s with output := s.output ++ ["\n```\n".data] }
  else if tag = "blockquote".data then
    let s := flush_text s
    { s with output := s.output ++ ["\n> ".data] }
  else if tag ∈ ["strong".data, "b".data] then
    let s := flush_text s
    { s with output := s.output ++ ["**".data] }
  else if tag ∈ ["em".data, "i".data] then
    let s := flush_text s
    { s with output := s.output ++ ["*".data] }
  else if tag = "hr".data then
    let s := flush_text s
    { s with output := s.output ++ ["\n---\n".data] }
  else if tag = "a".data then
    let s := flush_text s
    match (attrs.find? (fun p => p.1 = "href".data)).map Prod.snd with
    | some href =>
      if href ≠ [] ∧ ¬ "#".data.isPrefixOf href then
        { s with output := s.output ++ ["[".data] }
      else s
    | none => s
  else if tag = "img".data then
    match (attrs.find? (fun p => p.1 = "alt".data)).map Prod.snd with
    | some alt =>
      if alt ≠ [] then { s with output := s.output ++ ["[".data ++ alt ++ "]".data] }
      else s
    | none => s
  else if tag = "table".data then
    let s := flush_text s
    { s with output := s.output ++ ["\n[Table]\n".data] }
  else if tag = "div".data then
    let classes :=
      match (attrs.find? (fun p => p.1 = "class".data)).map Prod.snd with
      | some v => pySplitWords v
      | none => []
    if classes.any (fun cls =>
        cls ∈ ["warning".data, "note".data, "tip".data, "caution".data]) then
      let s := flush_text s
      { s with output := s.output ++ ["\n**Note:** ".data] }
    else s
  else s

/-- `handle_endtag` (improved_html_extractor.py lines 129-164). -/
def handle_endtag (s : ExtState) (tag : List Char) : ExtState :=
  if tag ∈ skip_tags then { s with in_skip := false }
  else if s.in_skip then s
  else
    let s := flush_text s
    if tag ∈ ["h1".data, "h2".data, "h3".data, "h4".data, "h5".data, "h6".data] then
      let s := { s with in_heading := false }
      { s with output := s.output ++ ["\n".data] }
    else if tag ∈ ["ul".data, "ol".data] then
      let s := { s with list_depth := s.list_depth - 1 }
      if s.list_depth = 0 then { s with output := s.output ++ ["\n".data] } else s
    else if tag ∈ ["code".data, "tt".data] then
      let s := { s with in_code := false }
      { s with output := s.output ++ ["`".data] }
    else if tag = "pre".data then
      let s := { s with in_pre := false }
      { s with output := s.output ++ ["\n```\n".data] }
    else if tag ∈ ["strong".data, "b".data] then
      { s with output := s.output ++ ["**".data] }
    else if tag ∈ ["em".data, "i".data] then
      { s with output := s.output ++ ["*".data] }
    else if tag = "a".data then
      if s.last_tag = some ("a".data) then { s with output := s.output ++ ["]".data] }
      else s
    else s

/-- `handle_data` (improved_html_extractor.py lines 166-180).  The source
branches on `in_code`, but both branches append the stripped text to
`current_text`. -/
def handle_data (s : ExtState) (data : List Char) : ExtState :=
  if s.in_skip then s
  else if s.in_pre then { s with output := s.output ++ [data] }
  else
    let text := pyStrip data
    if text ≠ [] then { s with current_text := s.current_text ++ [text] } else s

/-- `get_text` (improved_html_extractor.py lines 190-205): flush, join the
output fragments, then normalize. -/
def get_text (s : ExtState) : List Char :=
  let s := flush_text s
  let text := List.flatten s.output
  normalizeWith pyUnescape text

/-- Dispatch one scanner event to its handler. -/
def handleEvent (s : ExtState) : HEvent → ExtState
  | .starttag t a => handle_starttag s t a
  | .endtag t => handle_endtag s t
  | .data d => handle_data s d

/-- Feed a sequence of events (as `HTMLParser.feed` does). -/
def feedEvents (s : ExtState) (evs : List HEvent) : ExtState :=
  evs.foldl handleEvent s

/-- Extracted text of an event sequence on a freshly initialized
extractor. -/
def extractText (evs : List HEvent) : List Char :=
  get_text (feedEvents initState evs)

/-- Events of `<script>a<script>b</script>c</script>`: a script element
nested inside a script element. -/
def nestedScriptEvents : List HEvent :=
  [.starttag ("script".data) [], .data ("a".data), .starttag ("script".data) [],
   .data ("b".data), .endtag ("script".data), .data ("c".data),
   .endtag ("script".data)]

/-- Events of `<ul><li>a<ul><li>b</li></ul></li></ul>`: a list item at
nesting depth 2. -/
def nestedListEvents : List HEvent :=
  [.starttag ("ul".data) [], .starttag ("li".data) [], .data ("a".data),
   .starttag ("ul".data) [], .starttag ("li".data) [], .data ("b".data),
   .endtag ("li".data), .endtag ("ul".data), .endtag ("li".data),
   .endtag ("ul".data)]

/-- Events of `<h2>Title</h2><p>Text <strong>bold</strong></p>`. -/
def titleBoldEvents : List HEvent :=
  [.starttag ("h2".data) [], .data ("Title".data), .endtag ("h2".data),
   .starttag ("p".data) [], .data ("Text ".data), .starttag ("strong".data) [],
   .data ("bold".data), .endtag ("strong".data), .endtag ("p".data)]


/-!
Specification-side whitespace rules, written from the spec's wording as
one-pass state machines, to be compared with the regex-scan embeddings
`reCapRun` and `reSubNlSpaces`.
-/

/-- Modelled from the spec: collapse every maximal run of `c` to at most
`cap` copies ("collapse 4-or-more consecutive newlines to exactly 3",
"collapse 2-or-more consecutive spaces to 1"), keeping the first `cap`
characters of each run.  `pending` counts the copies of `c` already kept
in the current run. -/
def capRunFrom (c : Char) (cap : Nat) : Nat → List Char → List Char
  | _, [] => []
  | pending, d :: ds =>
    if d = c then
      if pending < cap then d :: capRunFrom c cap (pending + 1) ds
      else capRunFrom c cap pending ds
    else d :: capRunFrom c cap 0 ds

/-- Modelled from the spec: "strip leading spaces at the start of each
line" — drop every space that is separated from the last newline only by
spaces.  The flag records whether the scan is in such a position. -/
def stripAfterNl : Bool → List Char → List Char
  | _, [] => []
  | afterNl, d :: ds =>
    if afterNl ∧ d = ' ' then stripAfterNl true ds
    else d :: stripAfterNl (decide (d = '\n')) ds

/-- Modelled from the spec: the normalization rules in the specified
order — cap newline runs, cap space runs, strip line-leading spaces,
decode entities, trim the ends. -/
def specNormalizeWith (decode : List Char → List Char) (text : List Char) : List Char :=
  pyStrip (decode (stripAfterNl false (capRunFrom ' ' 1 0 (capRunFrom '\n' 3 0 text))))

theorem capRunFrom_ne {c e : Char} (cap : Nat) (p : Nat) (ds : List Char)
    (h : e ≠ c) : capRunFrom c cap p (e :: ds) = e :: capRunFrom c cap 0 ds := by
  simp [capRunFrom, h]

theorem capRunFrom_cons_run (c : Char) (cap : Nat) :
    ∀ (ds : List Char) (p : Nat),
      capRunFrom c cap p (c :: ds) =
        List.replicate (min (runLen c ds + 1) (cap - p)) c ++
          capRunFrom c cap 0 (ds.drop (runLen c ds)) := by
  intro ds
  induction ds with
  | nil =>
    intro p
    by_cases hp : p < cap
    · rw [show min (runLen c [] + 1) (cap - p) = 1 from by simp [runLen]; omega]
      simp [capRunFrom, hp]
    · rw [show min (runLen c [] + 1) (cap - p) = 0 from by simp [runLen]; omega]
      simp [capRunFrom, hp]
  | cons e ds' ih =>
    intro p
    by_cases he : e = c
    · rw [he, show runLen c (c :: ds') = runLen c ds' + 1 from by simp [runLen],
        List.drop_succ_cons]
      by_cases hp : p < cap
      · rw [show capRunFrom c cap p (c :: c :: ds')
              = c :: capRunFrom c cap (p + 1) (c :: ds') from by simp [capRunFrom, hp]]
        rw [ih (p + 1)]
        rw [show min (runLen c ds' + 1 + 1) (cap - p)
              = min (runLen c ds' + 1) (cap - (p + 1)) + 1 from by omega]
        rw [List.replicate_succ]
        rfl
      · rw [show capRunFrom c cap p (c :: c :: ds')
              = capRunFrom c cap p (c :: ds') from by simp [capRunFrom, hp]]
        rw [ih p]
        rw [show min (runLen c ds' + 1 + 1) (cap - p)
              = min (runLen c ds' + 1) (cap - p) from by omega]
    · rw [show runLen c (e :: ds') = 0 from by simp [runLen, he], List.drop_zero]
      rw [capRunFrom_ne cap 0 ds' he]
      by_cases hp : p < cap
      · rw [show capRunFrom c cap p (c :: e :: ds')
              = c :: capRunFrom c cap (p + 1) (e :: ds') from by simp [capRunFrom, hp]]
        rw [capRunFrom_ne cap (p + 1) ds' he]
        rw [show min (0 + 1) (cap - p) = 1 from by omega]
        rfl
      · rw [show capRunFrom c cap p (c :: e :: ds')
              = capRunFrom c cap p (e :: ds') from by simp [capRunFrom, hp]]
        rw [capRunFrom_ne cap p ds' he]
        rw [show min (0 + 1) (cap - p) = 0 from by omega]
        rfl

theorem reCapRunF_eq_spec (c : Char) (cap : Nat) :
    ∀ (fuel : Nat) (l : List Char), l.length ≤ fuel →
      reCapRunF c cap fuel l = capRunFrom c cap 0 l := by
  intro fuel
  induction fuel with
  | zero =>
    intro l hl
    have : l = [] := List.eq_nil_of_length_eq_zero (Nat.le_zero.mp hl)
    subst this
    rfl
  | succ fuel ih =>
    intro l hl
    match l with
    | [] => rfl
    | d :: ds =>
      by_cases hd : d = c
      · subst hd
        have h1 : (ds.drop (runLen d ds)).length ≤ fuel := by
          have := List.length_drop (runLen d ds) ds
          simp at hl
          omega
        calc reCapRunF d cap (fuel + 1) (d :: ds)
            = List.replicate (min (runLen d ds + 1) cap) d ++
                reCapRunF d cap fuel (ds.drop (runLen d ds)) := by
              simp [reCapRunF]
          _ = List.replicate (min (runLen d ds + 1) cap) d ++
                capRunFrom d cap 0 (ds.drop (runLen d ds)) := by
              rw [ih _ h1]
          _ = capRunFrom d cap 0 (d :: ds) := by
              rw [capRunFrom_cons_run d cap ds 0, Nat.sub_zero]
      · have h1 : ds.length ≤ fuel := by simp at hl; omega
        calc reCapRunF c cap (fuel + 1) (d :: ds)
            = d :: reCapRunF c cap fuel ds := by simp [reCapRunF, hd]
          _ = d :: capRunFrom c cap 0 ds := by rw [ih _ h1]
          _ = capRunFrom c cap 0 (d :: ds) := (capRunFrom_ne cap 0 ds hd).symm

/-- The regex-scan embedding of the run-capping rules agrees with the
spec's state-machine formulation. -/
theorem reCapRun_eq_spec (c : Char) (cap : Nat) (l : List Char) :
    reCapRun c cap l = capRunFrom c cap 0 l :=
  reCapRunF_eq_spec c cap l.length l le_rfl

theorem stripAfterNl_true_dropWhile :
    ∀ ds : List Char,
      stripAfterNl true ds = stripAfterNl false (ds.dropWhile (fun c => c = ' ')) := by
  intro ds
  induction ds with
  | nil => rfl
  | cons d ds' ih =>
    by_cases hd : d = ' '
    · subst hd
      simpa [stripAfterNl, List.dropWhile] using ih
    · simp [stripAfterNl, List.dropWhile, hd]

theorem reSubNlSpacesF_eq_spec :
    ∀ (fuel : Nat) (l : List Char), l.length ≤ fuel →
      reSubNlSpacesF fuel l = stripAfterNl false l := by
  intro fuel
  induction fuel with
  | zero =>
    intro l hl
    have : l = [] := List.eq_nil_of_length_eq_zero (Nat.le_zero.mp hl)
    subst this
    rfl
  | succ fuel ih =>
    intro l hl
    match l with
    | [] => rfl
    | d :: ds =>
      by_cases hd : d = '\n'
      · subst hd
        have h1 : (ds.dropWhile (fun c => c = ' ')).length ≤ fuel := by
          have := (List.dropWhile_sublist (l := ds) (fun c => c = ' ')).length_le
          simp at hl
          omega
        calc reSubNlSpacesF (fuel + 1) ('\n' :: ds)
            = '\n' :: reSubNlSpacesF fuel (ds.dropWhile (fun c => c = ' ')) := by
              simp [reSubNlSpacesF]
          _ = '\n' :: stripAfterNl false (ds.dropWhile (fun c => c = ' ')) := by
              rw [ih _ h1]
          _ = '\n' :: stripAfterNl true ds := by rw [stripAfterNl_true_dropWhile]
          _ = stripAfterNl false ('\n' :: ds) := by simp [stripAfterNl]
      · have h1 : ds.length ≤ fuel := by simp at hl; omega
        calc reSubNlSpacesF (fuel + 1) (d :: ds)
            = d :: reSubNlSpacesF fuel ds := by simp [reSubNlSpacesF, hd]
          _ = d :: stripAfterNl false ds := by rw [ih _ h1]
          _ = stripAfterNl false (d :: ds) := by simp [stripAfterNl, hd]

/-- The regex-scan embedding of the line-leading-space rule agrees with
the spec's state-machine formulation. -/
theorem reSubNlSpaces_eq_spec (l : List Char) :
    reSubNlSpaces l = stripAfterNl false l :=
  reSubNlSpacesF_eq_spec l.length l le_rfl

/-- The normalization performed by `get_text` applies the spec's five
rules in the spec's order, for any entity decoder. -/
theorem normalizeWith_eq_spec (decode : List Char → List Char) (l : List Char) :
    normalizeWith decode l = specNormalizeWith decode l := by
  unfold normalizeWith specNormalizeWith
  rw [reCapRun_eq_spec, reCapRun_eq_spec, reSubNlSpaces_eq_spec]

/-!
Helpers: bullet indentation (list items) and absence of line-leading
spaces after normalization.
-/

/-- No space stands directly after a newline. -/
def noLineLeadSpace : List Char → Bool
  | [] => true
  | [_] => true
  | d :: e :: rest =>
    !(decide (d = '\n') && decide (e = ' ')) && noLineLeadSpace (e :: rest)

theorem stripAfterNl_true_head :
    ∀ (ds : List Char) (e : Char) (rest : List Char),
      stripAfterNl true ds = e :: rest → e ≠ ' ' := by
  intro ds
  induction ds with
  | nil =>
    intro e rest h
    simp [stripAfterNl] at h
  | cons d ds' ih =>
    intro e rest h
    by_cases hd : d = ' '
    · rw [hd] at h
      rw [show stripAfterNl true (' ' :: ds') = stripAfterNl true ds' from by
        simp [stripAfterNl]] at h
      exact ih e rest h
    · rw [show stripAfterNl true (d :: ds')
          = d :: stripAfterNl (decide (d = '\n')) ds' from by simp [stripAfterNl, hd]] at h
      injection h with h1 h2
      exact h1 ▸ hd

theorem stripAfterNl_noLineLeadSpace :
    ∀ (l : List Char) (b : Bool), noLineLeadSpace (stripAfterNl b l) = true := by
  intro l
  induction l with
  | nil => intro b; rfl
  | cons d ds ih =>
    intro b
    by_cases hcond : b = true ∧ d = ' '
    · obtain ⟨hb, hd⟩ := hcond
      rw [hb, hd]
      rw [show stripAfterNl true (' ' :: ds) = stripAfterNl true ds from by
        simp [stripAfterNl]]
      exact ih true
    · rw [show stripAfterNl b (d :: ds) = d :: stripAfterNl (decide (d = '\n')) ds from by
        simp [stripAfterNl]
        intro h1 h2
        exact absurd ⟨h1, h2⟩ hcond]
      cases hrest : stripAfterNl (decide (d = '\n')) ds with
      | nil => rfl
      | cons e rest =>
        have h2 : noLineLeadSpace (e :: rest) = true := by
          rw [← hrest]; exact ih _
        by_cases hd : d = '\n'
        · subst hd
          rw [show decide ('\n' = '\n') = true from rfl] at hrest
          have he : e ≠ ' ' := stripAfterNl_true_head ds e rest hrest
          simp [noLineLeadSpace, he, h2]
        · simp [noLineLeadSpace, hd, h2]

theorem flush_text_list_depth (s : ExtState) :
    (flush_text s).list_depth = s.list_depth := by
  simp only [flush_text]
  split_ifs <;> rfl

/-- Flushing ignores `last_tag`. -/
theorem flush_text_output_ignores_last_tag
    (o ct : List (List Char)) (a b c : Bool) (d : Nat) (e : Bool)
    (lt lt' : Option (List Char)) :
    (flush_text ⟨o, ct, a, b, c, d, e, lt⟩).output
      = (flush_text ⟨o, ct, a, b, c, d, e, lt'⟩).output := by
  simp only [flush_text]
  split_ifs <;> rfl

theorem flatten_replicate_two_space :
    ∀ n : Nat, List.flatten (List.replicate n ("  ".data)) = List.replicate (2 * n) ' ' := by
  intro n
  induction n with
  | zero => rfl
  | succ k ih =>
    rw [List.replicate_succ, List.flatten_cons, ih]
    rw [show 2 * (k + 1) = 2 * k + 1 + 1 from by ring]
    rw [List.replicate_succ]
    rfl

/-- On a `li` start tag outside skip state, the extractor appends a line
consisting of a newline, `2 * (list_depth - 1)` indent spaces, and the
bullet glyph, after flushing the pending text. -/
theorem handle_starttag_li_output
    (o ct : List (List Char)) (cf pf : Bool) (d : Nat) (hf : Bool)
    (lt : Option (List Char)) (attrs : List (List Char × List Char)) :
    (handle_starttag ⟨o, ct, false, cf, pf, d, hf, lt⟩ ("li".data) attrs).output
      = (flush_text ⟨o, ct, false, cf, pf, d, hf, lt⟩).output
        ++ ["\n".data ++ List.replicate (2 * (d - 1)) ' ' ++ "• ".data] := by
  have h1 : ¬ (("li".data : List Char) ∈ skip_tags) := by decide
  have h2 : ¬ (("li".data : List Char) ∈
      ["h1".data, "h2".data, "h3".data, "h4".data, "h5".data, "h6".data]) := by decide
  have h3 : ("li".data : List Char) ≠ "p".data := by decide
  have h4 : ("li".data : List Char) ≠ "br".data := by decide
  have h5 : ¬ (("li".data : List Char) ∈ ["ul".data, "ol".data]) := by decide
  simp [handle_starttag, h1, h2, h3, h4, h5, flush_text_list_depth,
    flush_text_output_ignores_last_tag o ct false cf pf d hf (some ("li".data)) lt]
  exact flatten_replicate_two_space (d - 1)

/-!
Characterization of the splitting loop: with a positive advance, the loop
terminates and produces one chunk per window start `0, s, 2s, ...` below
the word count, where `s = chunk_size - chunk_overlap`.
-/

theorem chunkLoop_eq (doc : ProcessedDoc) (chunk_size chunk_overlap : Nat)
    (words : List (List Char)) (hov : chunk_overlap < chunk_size) :
    ∀ (fuel start idx : Nat), words.length < start + fuel → 0 < fuel →
      chunkLoop doc chunk_size chunk_overlap words fuel start idx =
        some ((List.range
            ((words.length - start + (chunk_size - chunk_overlap) - 1)
              / (chunk_size - chunk_overlap))).map
          (fun j => mkChunk doc chunk_size words
            (start + j * (chunk_size - chunk_overlap)) (idx + j))) := by
  have hs : 0 < chunk_size - chunk_overlap := by omega
  intro fuel
  induction fuel with
  | zero => intro start idx _ hpos; omega
  | succ fuel ih =>
    intro start idx hbound _
    by_cases hstart : start < words.length
    · have hadv : start + chunk_size - chunk_overlap
          = start + (chunk_size - chunk_overlap) := by omega
      have ih' := ih (start + (chunk_size - chunk_overlap)) (idx + 1)
        (by omega) (by omega)
      have hcnt : (words.length - start + (chunk_size - chunk_overlap) - 1)
            / (chunk_size - chunk_overlap)
          = (words.length - (start + (chunk_size - chunk_overlap))
                + (chunk_size - chunk_overlap) - 1)
              / (chunk_size - chunk_overlap) + 1 := by
        rcases le_or_lt (words.length - start) (chunk_size - chunk_overlap) with hMs | hMs
        · rw [show words.length - (start + (chunk_size - chunk_overlap)) = 0 from by omega]
          rw [show words.length - start + (chunk_size - chunk_overlap) - 1
              = (words.length - start - 1) + (chunk_size - chunk_overlap) from by omega]
          rw [Nat.add_div_right _ hs]
          rw [Nat.div_eq_of_lt (by omega), Nat.div_eq_of_lt (by omega)]
        · rw [show words.length - start + (chunk_size - chunk_overlap) - 1
              = (words.length - start - 1) + (chunk_size - chunk_overlap) from by omega]
          rw [show words.length - (start + (chunk_size - chunk_overlap))
                + (chunk_size - chunk_overlap) - 1
              = (words.length - start - (chunk_size - chunk_overlap) - 1)
                  + (chunk_size - chunk_overlap) from by omega]
          rw [Nat.add_div_right _ hs, Nat.add_div_right _ hs]
          rw [show words.length - start - 1
              = (words.length - start - (chunk_size - chunk_overlap) - 1)
                  + (chunk_size - chunk_overlap) from by omega]
          rw [Nat.add_div_right _ hs]
      rw [show chunkLoop doc chunk_size chunk_overlap words (fuel + 1) start idx
          = match chunkLoop doc chunk_size chunk_overlap words fuel
              (start + chunk_size - chunk_overlap) (idx + 1) with
            | none => none
            | some rest =>
              some (mkChunk doc chunk_size words start idx :: rest)
          from by simp [chunkLoop, hstart]]
      rw [hadv, ih']
      rw [hcnt, List.range_succ_eq_map, List.map_cons, List.map_map]
      simp only [Nat.zero_mul, Nat.add_zero]
      congr 1
      congr 1
      apply List.map_congr_left
      intro j _
      have e1 : start + (chunk_size - chunk_overlap) + j * (chunk_size - chunk_overlap)
          = start + Nat.succ j * (chunk_size - chunk_overlap) := by
        rw [Nat.succ_mul]; ring
      have e2 : idx + 1 + j = idx + Nat.succ j := by omega
      rw [Function.comp_apply, ← e1, ← e2]
    · rw [show chunkLoop doc chunk_size chunk_overlap words (fuel + 1) start idx
          = some [] from by simp [chunkLoop, hstart]]
      rw [show words.length - start = 0 from by omega]
      rw [show 0 + (chunk_size - chunk_overlap) - 1 = chunk_size - chunk_overlap - 1
          from by omega]
      rw [Nat.div_eq_of_lt (by omega)]
      rfl

/-- Number of chunks the loop produces for a multi-chunk document:
`ceil(N / (chunk_size - chunk_overlap))` where `N` is the word count,
written as `(N + s - 1) / s`. -/
def chunkCount (doc : ProcessedDoc) (chunk_size chunk_overlap : Nat) : Nat :=
  ((pySplitWords doc.clean_text).length + (chunk_size - chunk_overlap) - 1)
    / (chunk_size - chunk_overlap)

/-- The finished chunk at position `j` of a multi-chunk document:
the loop chunk for window start `j * (chunk_size - chunk_overlap)`, with
`total_chunks` back-filled to `total` and the last position rewritten to
`end`. -/
def windowChunk (doc : ProcessedDoc) (chunk_size chunk_overlap total : Nat)
    (j : Nat) : Chunk :=
  let base := mkChunk doc chunk_size (pySplitWords doc.clean_text)
    (j * (chunk_size - chunk_overlap)) j
  let bf := { base with metadata := { base.metadata with total_chunks := (total : Int) } }
  if j + 1 = total then
    { bf with metadata := { bf.metadata with position := some ("end".data) } }
  else bf

theorem setLastPositionEnd_length :
    ∀ cs : List Chunk, (setLastPositionEnd cs).length = cs.length := by
  intro cs
  induction cs with
  | nil => rfl
  | cons c cs' ih =>
    cases cs' with
    | nil => rfl
    | cons c2 cs'' => simpa [setLastPositionEnd] using ih

theorem setLastPositionEnd_getElem :
    ∀ (cs : List Chunk) (j : Nat) (h2 : j < (setLastPositionEnd cs).length)
      (h : j < cs.length),
      (setLastPositionEnd cs)[j]
        = if j + 1 = cs.length
          then { cs[j] with metadata :=
                  { (cs[j]).metadata with position := some ("end".data) } }
          else cs[j] := by
  intro cs
  induction cs with
  | nil => intro j h2 h; exact absurd h (by simp)
  | cons c cs' ih =>
    cases cs' with
    | nil =>
      intro j h2 h
      have hj : j = 0 := by simpa using h
      subst hj
      simp [setLastPositionEnd]
    | cons c2 cs'' =>
      intro j h2 h
      cases j with
      | zero =>
        have hne : ¬ (0 + 1 = (c :: c2 :: cs'').length) := by
          simp [List.length_cons]
        simp [setLastPositionEnd, hne]
      | succ j' =>
        have h' : j' < (c2 :: cs'').length := by
          simpa [List.length_cons] using h
        have h2' : j' < (setLastPositionEnd (c2 :: cs'')).length := by
          rw [setLastPositionEnd_length]; exact h'
        have hstep : (setLastPositionEnd (c :: c2 :: cs''))[j' + 1]
            = (setLastPositionEnd (c2 :: cs''))[j'] := by
          simp [setLastPositionEnd]
        rw [hstep, ih j' h2' h']
        by_cases hj : j' + 1 = (c2 :: cs'').length
        · rw [if_pos hj, if_pos (by simp [List.length_cons] at hj ⊢; omega)]
          simp [List.getElem_cons_succ]
        · rw [if_neg hj, if_neg (by simp [List.length_cons] at hj ⊢; omega)]
          simp [List.getElem_cons_succ]

/-- In the multi-chunk case, `chunk_document` terminates and produces
exactly the `chunkCount` finished window chunks. -/
theorem chunk_document_multi (doc : ProcessedDoc) (chunk_size chunk_overlap : Nat)
    (hov : chunk_overlap < chunk_size)
    (hbig : chunk_size < (pySplitWords doc.clean_text).length) :
    chunk_document doc chunk_size chunk_overlap =
      some ((List.range (chunkCount doc chunk_size chunk_overlap)).map
        (windowChunk doc chunk_size chunk_overlap
          (chunkCount doc chunk_size chunk_overlap))) := by
  have hloop := chunkLoop_eq doc chunk_size chunk_overlap
    (pySplitWords doc.clean_text) hov ((pySplitWords doc.clean_text).length + 1) 0 0
    (by omega) (by omega)
  have hcnt : ((pySplitWords doc.clean_text).length - 0 + (chunk_size - chunk_overlap) - 1)
        / (chunk_size - chunk_overlap) = chunkCount doc chunk_size chunk_overlap := by
    simp [chunkCount]
  rw [hcnt] at hloop
  unfold chunk_document
  rw [if_neg (by omega), hloop]
  set L := (List.range (chunkCount doc chunk_size chunk_overlap)).map
    (fun j => mkChunk doc chunk_size (pySplitWords doc.clean_text)
      (0 + j * (chunk_size - chunk_overlap)) (0 + j)) with hL
  have hlen : L.length = chunkCount doc chunk_size chunk_overlap := by
    simp [hL]
  have hbflen : (backfillTotal (L.length : Int) L).length = L.length := by
    simp [backfillTotal]
  show some (setLastPositionEnd (backfillTotal ((L.length : Int)) L)) = _
  congr 1
  apply List.ext_getElem
  · rw [setLastPositionEnd_length, hbflen, hlen, List.length_map, List.length_range]
  · intro j h1 h2
    have hjc : j < chunkCount doc chunk_size chunk_overlap := by
      simpa [List.length_map, List.length_range] using h2
    have hjL : j < L.length := by rw [hlen]; exact hjc
    have hjbf : j < (backfillTotal (L.length : Int) L).length := by
      rw [hbflen]; exact hjL
    rw [setLastPositionEnd_getElem (backfillTotal (L.length : Int) L) j h1 hjbf]
    have hbfel : (backfillTotal (L.length : Int) L)[j]
        = { L[j] with metadata :=
            { (L[j]).metadata with total_chunks := (L.length : Int) } } := by
      simp [backfillTotal]
    have hLel : L[j] = mkChunk doc chunk_size (pySplitWords doc.clean_text)
        (j * (chunk_size - chunk_overlap)) j := by
      simp [hL]
    rw [hbfel, hLel, hbflen, hlen]
    simp only [List.getElem_map, List.getElem_range]
    rw [windowChunk]

theorem windowChunk_text (doc : ProcessedDoc) (chunk_size chunk_overlap total j : Nat) :
    (windowChunk doc chunk_size chunk_overlap total j).text
      = (mkChunk doc chunk_size (pySplitWords doc.clean_text)
          (j * (chunk_size - chunk_overlap)) j).text := by
  rw [windowChunk]
  split_ifs <;> rfl

theorem windowChunk_chunk_words (doc : ProcessedDoc)
    (chunk_size chunk_overlap total j : Nat) :
    (windowChunk doc chunk_size chunk_overlap total j).metadata.chunk_words
      = (mkChunk doc chunk_size (pySplitWords doc.clean_text)
          (j * (chunk_size - chunk_overlap)) j).metadata.chunk_words := by
  rw [windowChunk]
  split_ifs <;> rfl

theorem mkChunk_chunk_words (doc : ProcessedDoc) (chunk_size : Nat)
    (words : List (List Char)) (chunk_start chunk_index : Nat) :
    (mkChunk doc chunk_size words chunk_start chunk_index).metadata.chunk_words
      = min chunk_size (words.length - chunk_start) := by
  simp only [mkChunk, List.length_take, List.length_drop]
  omega

theorem mkChunk_text_cont (doc : ProcessedDoc) (chunk_size : Nat)
    (words : List (List Char)) (chunk_start chunk_index : Nat)
    (hpos : 0 < chunk_index) :
    (mkChunk doc chunk_size words chunk_start chunk_index).text
      = "[Continued from ".data ++ doc.title ++ "] ".data
        ++ List.intercalate [' '] ((words.drop chunk_start).take chunk_size) := by
  have htake : (words.drop chunk_start).take
        (min (chunk_start + chunk_size) words.length - chunk_start)
      = (words.drop chunk_start).take chunk_size := by
    rw [List.take_eq_take]
    simp only [List.length_drop]
    omega
  simp only [mkChunk, htake, if_pos hpos, List.append_assoc]

/-- The branch of `chunk_document` for at most `chunk_size` words
(sumo_kb_downloader.py lines 200-215): one chunk, whole text, no
`position` key. -/
theorem chunk_document_small (doc : ProcessedDoc) (chunk_size chunk_overlap : Nat)
    (h : (pySplitWords doc.clean_text).length ≤ chunk_size) :
    chunk_document doc chunk_size chunk_overlap =
      some [{ chunk_id := doc.id ++ "_chunk_0".data
              doc_id := doc.id
              chunk_index := 0
              text := doc.clean_text
              citation := doc.citation
              metadata :=
                { chunk_words := (pySplitWords doc.clean_text).length
                  total_chunks := 1
                  slug := doc.slug
                  title := doc.title
                  position := none } }] := by
  unfold chunk_document
  rw [if_pos h]

/-- Number of start-tag events for `tag` in an event sequence. -/
def countStart (tag : List Char) : List HEvent → Nat
  | [] => 0
  | .starttag t _ :: es => (if t = tag then 1 else 0) + countStart tag es
  | _ :: es => countStart tag es

/-- Number of end-tag events for `tag` in an event sequence. -/
def countEnd (tag : List Char) : List HEvent → Nat
  | [] => 0
  | .endtag t :: es => (if t = tag then 1 else 0) + countEnd tag es
  | _ :: es => countEnd tag es

/-- One scanner event processed by the extractor (the graph of the
handler dispatch; the extractor has no other transitions). -/
inductive ExtractStep : ExtState → HEvent → ExtState → Prop
  | starttag (s : ExtState) (tag : List Char) (attrs : List (List Char × List Char)) :
      ExtractStep s (.starttag tag attrs) (handle_starttag s tag attrs)
  | endtag (s : ExtState) (tag : List Char) :
      ExtractStep s (.endtag tag) (handle_endtag s tag)
  | data (s : ExtState) (d : List Char) :
      ExtractStep s (.data d) (handle_data s d)

/-- A run of the extractor over an event sequence. -/
inductive ExtractRun : ExtState → List HEvent → ExtState → Prop
  | nil (s : ExtState) : ExtractRun s [] s
  | cons {s s' s'' : ExtState} {e : HEvent} {evs : List HEvent} :
      ExtractStep s e s' → ExtractRun s' evs s'' → ExtractRun s (e :: evs) s''

theorem extractStep_det {s s1 s2 : ExtState} {e : HEvent}
    (h1 : ExtractStep s e s1) (h2 : ExtractStep s e s2) : s1 = s2 := by
  cases h1 <;> cases h2 <;> rfl

theorem extractRun_det :
    ∀ {evs : List HEvent} {s s1 s2 : ExtState},
      ExtractRun s evs s1 → ExtractRun s evs s2 → s1 = s2 := by
  intro evs
  induction evs with
  | nil =>
    intro s s1 s2 h1 h2
    cases h1; cases h2; rfl
  | cons e evs' ih =>
    intro s s1 s2 h1 h2
    cases h1 with
    | cons hstep1 hrun1 =>
      cases h2 with
      | cons hstep2 hrun2 =>
        rw [extractStep_det hstep1 hstep2] at hrun1
        exact ih hrun1 hrun2

theorem extractRun_feedEvents :
    ∀ (evs : List HEvent) (s s' : ExtState),
      ExtractRun s evs s' → s' = feedEvents s evs := by
  intro evs
  induction evs with
  | nil =>
    intro s s' h
    cases h; rfl
  | cons e evs' ih =>
    intro s s' h
    cases h with
    | cons hstep hrun =>
      cases hstep <;> exact ih _ _ hrun

/-- Whether `pat` occurs as a contiguous subsequence of the list. -/
def containsSeq (pat : List Char) : List Char → Bool
  | [] => pat.isPrefixOf []
  | c :: cs => pat.isPrefixOf (c :: cs) || containsSeq pat cs

/-!
Claim theorems.
-/

/-- C1: the claim says `chunk_document` with `chunk_overlap >= chunk_size`
raises a ConfigurationError before any splitting and produces no passages.
The source has no such guard: with two words and `chunk_overlap = 7 >
chunk_size = 5` it happily returns one passage, and with six words the
window start never advances and the loop never terminates (modelled as
`none`), so no error is ever raised. -/
theorem chunk_document_overlap_ge_size_no_error :
    (chunk_document doc2w 5 7).map List.length = some 1 ∧
      chunk_document doc6w 5 7 = none :=
  ⟨by decide, by decide⟩

/-- C2 (counterexample): for the five-word document with `chunk_size = 3`,
`chunk_overlap = 1`, the code produces 3 passages while the claim's
formula `ceil((N - chunk_overlap) / (chunk_size - chunk_overlap))` gives
`ceil(4 / 2) = 2`. -/
theorem chunk_count_formula_cex :
    (chunk_document doc5w 3 1).map List.length = some 3 ∧
      ((pySplitWords doc5w.clean_text).length - 1 + (3 - 1) - 1) / (3 - 1) = 2 :=
  ⟨by decide, by decide⟩

/-- C2 (amended): for `N > chunk_size` words and `chunk_overlap <
chunk_size`, the number of passages is `ceil(N / (chunk_size -
chunk_overlap))` — the loop keeps a window for every start offset below
`N`, including final windows that lie entirely inside the previous one. -/
theorem chunk_count_eq_ceil_div_stride (doc : ProcessedDoc)
    (chunk_size chunk_overlap : Nat)
    (hov : chunk_overlap < chunk_size)
    (hbig : chunk_size < (pySplitWords doc.clean_text).length) :
    ∃ cs, chunk_document doc chunk_size chunk_overlap = some cs ∧
      cs.length = ((pySplitWords doc.clean_text).length
          + (chunk_size - chunk_overlap) - 1) / (chunk_size - chunk_overlap) := by
  refine ⟨_, chunk_document_multi doc chunk_size chunk_overlap hov hbig, ?_⟩
  simp [chunkCount]

theorem chunk_count_eq_ceil_div_stride_witness :
    ∃ cs, chunk_document doc5w 3 1 = some cs ∧
      cs.length = ((pySplitWords doc5w.clean_text).length + (3 - 1) - 1) / (3 - 1) :=
  chunk_count_eq_ceil_div_stride doc5w 3 1 (by decide) (by decide)

/-- C3 (counterexample): empty input text does not yield zero passages —
the small-document branch fires (`0 <= chunk_size`) and returns exactly
one passage whose text is empty and whose `chunk_words` is 0. -/
theorem empty_text_one_chunk_cex :
    (chunk_document docEmpty 500 100).map
        (List.map fun c => (c.text, c.metadata.chunk_words))
      = some [([], 0)] := by decide

/-- C3 (amended): an input with zero words after splitting produces
exactly one passage with the (empty) original text, `chunk_words = 0`,
`total_chunks = 1` and no `position` key — emptiness is not an error. -/
theorem chunk_document_empty_text (doc : ProcessedDoc)
    (chunk_size chunk_overlap : Nat)
    (h : pySplitWords doc.clean_text = []) :
    chunk_document doc chunk_size chunk_overlap
      = some [{ chunk_id := doc.id ++ "_chunk_0".data
                doc_id := doc.id
                chunk_index := 0
                text := doc.clean_text
                citation := doc.citation
                metadata :=
                  { chunk_words := 0
                    total_chunks := 1
                    slug := doc.slug
                    title := doc.title
                    position := none } }] := by
  simp [chunk_document, h]

theorem chunk_document_empty_text_witness :
    chunk_document docEmpty 500 100
      = some [{ chunk_id := docEmpty.id ++ "_chunk_0".data
                doc_id := docEmpty.id
                chunk_index := 0
                text := docEmpty.clean_text
                citation := docEmpty.citation
                metadata :=
                  { chunk_words := 0
                    total_chunks := 1
                    slug := docEmpty.slug
                    title := docEmpty.title
                    position := none } }] :=
  chunk_document_empty_text docEmpty 500 100 (by decide)

/-- C4 (counterexample): for a one-word document the single passage's
metadata has no `position` key at all (the claim says `position = end`;
only the multi-chunk branch ever writes `position`). -/
theorem single_chunk_position_cex :
    (chunk_document doc1w 500 100).map (List.map fun c => c.metadata.position)
      = some [none] := by decide

/-- C4 (amended): a non-empty text of at most `chunk_size` words produces
exactly one passage whose text is the whole input, with `chunk_index = 0`
and `total_chunks = 1`, and whose metadata carries no `position` field. -/
theorem chunk_document_single_passage (doc : ProcessedDoc)
    (chunk_size chunk_overlap : Nat)
    (_hne : 0 < (pySplitWords doc.clean_text).length)
    (hle : (pySplitWords doc.clean_text).length ≤ chunk_size) :
    ∃ c, chunk_document doc chunk_size chunk_overlap = some [c] ∧
      c.text = doc.clean_text ∧ c.chunk_index = 0 ∧
      c.metadata.total_chunks = 1 ∧ c.metadata.position = none :=
  ⟨_, chunk_document_small doc chunk_size chunk_overlap hle, rfl, rfl, rfl, rfl⟩

theorem chunk_document_single_passage_witness :
    ∃ c, chunk_document doc1w 500 100 = some [c] ∧
      c.text = doc1w.clean_text ∧ c.chunk_index = 0 ∧
      c.metadata.total_chunks = 1 ∧ c.metadata.position = none :=
  chunk_document_single_passage doc1w 500 100 (by decide) (by decide)

/-- C5: text nested inside a skip tag can leak.  In
`<script>a<script>b</script>c</script>` the data event `c` arrives at a
point where two `script` start tags but only one end tag have been seen
(so it is still inside the outer script element), yet the boolean
`in_skip` was already cleared by the inner close and `c` is the entire
extracted output. -/
theorem nested_skip_text_leaks :
    countStart ("script".data) (nestedScriptEvents.take 5) = 2 ∧
    countEnd ("script".data) (nestedScriptEvents.take 5) = 1 ∧
    nestedScriptEvents[5]? = some (.data ("c".data)) ∧
    extractText nestedScriptEvents = "c".data :=
  ⟨by decide, by decide, by decide, by decide⟩

/-- C6 (counterexample): in the final extracted text of
`<ul><li>a<ul><li>b</li></ul></li></ul>` the depth-2 bullet for `b` is
preceded by zero spaces, not `2*(2-1) = 2`: whitespace normalization
strips all line-leading spaces. -/
theorem deep_bullet_unindented_cex :
    containsSeq ("\n  • ".data) (extractText nestedListEvents) = false ∧
    containsSeq ("\n• b".data) (extractText nestedListEvents) = true :=
  ⟨by decide, by decide⟩

/-- C6 (amended): the extractor emits `2*(list_depth - 1)` indent spaces
before a bullet in its raw output, but `get_text`'s normalization removes
every space that follows a newline, so in the final text bullets at every
depth are preceded by zero indent spaces (shown concretely on the
depth-2 example). -/
theorem bullet_indent_raw_then_stripped (o ct : List (List Char))
    (cf pf : Bool) (d : Nat) (hf : Bool) (lt : Option (List Char))
    (attrs : List (List Char × List Char)) :
    ((handle_starttag ⟨o, ct, false, cf, pf, d, hf, lt⟩ ("li".data) attrs).output
        = (flush_text ⟨o, ct, false, cf, pf, d, hf, lt⟩).output
          ++ ["\n".data ++ List.replicate (2 * (d - 1)) ' ' ++ "• ".data])
    ∧ (∀ l : List Char, noLineLeadSpace (reSubNlSpaces l) = true)
    ∧ extractText nestedListEvents = "• a\n\n• b".data := by
  refine ⟨handle_starttag_li_output o ct cf pf d hf lt attrs, ?_, by decide⟩
  intro l
  rw [reSubNlSpaces_eq_spec]
  exact stripAfterNl_noLineLeadSpace l false

/-- C7 (counterexample): the extracted text of
`<h2>Title</h2><p>Text <strong>bold</strong></p>` does not contain
`"Text **bold**"` — the data `"Text "` is stripped, so the bold marker is
glued to the word and the output contains `"Text**bold**"` instead. -/
theorem title_bold_no_space_cex :
    containsSeq ("Text **bold**".data) (extractText titleBoldEvents) = false ∧
    containsSeq ("Text**bold**".data) (extractText titleBoldEvents) = true :=
  ⟨by decide, by decide⟩

/-- C7 (amended): the extracted text of
`<h2>Title</h2><p>Text <strong>bold</strong></p>` is exactly
`"## Title"` followed by a blank-line separation and then
`"Text**bold**"` with no space before the bold marker. -/
theorem title_bold_extraction :
    extractText titleBoldEvents = "## Title\n\n\nText**bold**".data := by decide

/-- C8: `get_text`'s normalization performs exactly the five rules in the
specified order — it equals the spec-side pipeline for every entity
decoder, and entity decoding runs after all whitespace collapsing: the
decoded double space of `a&#32;&#32;b` survives, whereas decoding first
would collapse it. -/
theorem normalization_rule_order :
    (∀ (decode : List Char → List Char) (l : List Char),
        normalizeWith decode l = specNormalizeWith decode l)
    ∧ normalizeWith pyUnescape ("a&#32;&#32;b".data) = "a  b".data
    ∧ pyStrip (reSubNlSpaces (reCapRun ' ' 1 (reCapRun '\n' 3
        (pyUnescape ("a&#32;&#32;b".data))))) = "a b".data :=
  ⟨normalizeWith_eq_spec, by decide, by decide⟩

/-- C9: extraction is deterministic — any two runs of the extractor over
the same event sequence from the freshly initialized state end in states
with identical extracted text, and that text is the pure function
`extractText` of the events. -/
theorem extraction_deterministic (evs : List HEvent) (s1 s2 : ExtState)
    (h1 : ExtractRun initState evs s1) (h2 : ExtractRun initState evs s2) :
    get_text s1 = get_text s2 ∧ get_text s1 = extractText evs := by
  have e1 := extractRun_feedEvents evs initState s1 h1
  have e2 := extractRun_feedEvents evs initState s2 h2
  subst e1
  subst e2
  exact ⟨rfl, rfl⟩

theorem extraction_deterministic_witness :
    get_text (handle_data initState ("x".data))
        = get_text (handle_data initState ("x".data))
    ∧ get_text (handle_data initState ("x".data)) = extractText [.data ("x".data)] :=
  extraction_deterministic [.data ("x".data)]
    (handle_data initState ("x".data)) (handle_data initState ("x".data))
    (ExtractRun.cons (ExtractStep.data initState ("x".data)) (ExtractRun.nil _))
    (ExtractRun.cons (ExtractStep.data initState ("x".data)) (ExtractRun.nil _))

/-- C10: in the multi-chunk case every passage's `chunk_words` counts the
words of its window from the original text — `min chunk_size (N - start)`
for window start `start = j * (chunk_size - chunk_overlap)` — and every
passage after the first stores the continuation marker plus the window
text, so the marker's words are excluded from `chunk_words`. -/
theorem chunk_words_from_window (doc : ProcessedDoc)
    (chunk_size chunk_overlap : Nat)
    (hov : chunk_overlap < chunk_size)
    (hbig : chunk_size < (pySplitWords doc.clean_text).length) :
    ∃ cs, chunk_document doc chunk_size chunk_overlap = some cs ∧
      ∀ (j : Nat) (hj : j < cs.length),
        (cs.get ⟨j, hj⟩).metadata.chunk_words
            = min chunk_size
                ((pySplitWords doc.clean_text).length
                  - j * (chunk_size - chunk_overlap))
        ∧ (0 < j → (cs.get ⟨j, hj⟩).text
            = "[Continued from ".data ++ doc.title ++ "] ".data
              ++ List.intercalate [' ']
                (((pySplitWords doc.clean_text).drop
                  (j * (chunk_size - chunk_overlap))).take chunk_size)) := by
  refine ⟨_, chunk_document_multi doc chunk_size chunk_overlap hov hbig, ?_⟩
  intro j hj
  have hel : ((List.range (chunkCount doc chunk_size chunk_overlap)).map
        (windowChunk doc chunk_size chunk_overlap
          (chunkCount doc chunk_size chunk_overlap))).get ⟨j, hj⟩
      = windowChunk doc chunk_size chunk_overlap
          (chunkCount doc chunk_size chunk_overlap) j := by
    simp
  constructor
  · rw [hel, windowChunk_chunk_words, mkChunk_chunk_words]
  · intro hjpos
    rw [hel, windowChunk_text, mkChunk_text_cont _ _ _ _ _ hjpos]

theorem chunk_words_from_window_witness :
    ∃ cs, chunk_document doc5w 3 1 = some cs ∧
      ∀ (j : Nat) (hj : j < cs.length),
        (cs.get ⟨j, hj⟩).metadata.chunk_words
            = min 3 ((pySplitWords doc5w.clean_text).length - j * (3 - 1))
        ∧ (0 < j → (cs.get ⟨j, hj⟩).text
            = "[Continued from ".data ++ doc5w.title ++ "] ".data
              ++ List.intercalate [' ']
                (((pySplitWords doc5w.clean_text).drop (j * (3 - 1))).take 3)) :=
  chunk_words_from_window doc5w 3 1 (by decide) (by decide)
